import Mathlib

/-!
Verification of the category-graph component of the wiki-scripts repository
(`ws/interlanguage/CategoryGraph.py`): graph construction (`build_graph`),
ordered cycle-safe traversal (`walk`), and the synchronized tree diff
(`compare_components`), shallowly embedded as executable Lean functions.

Python dictionaries are embedded as association lists, generators as the
finite lists of values they yield, and the `MyIterator` lookahead wrapper over
a generator as the list of items it has yet to return (`bool(it)` is
`list ≠ []`, `next(it)` on `[]` raises).
-/

namespace WikiScripts

/-- A graph maps a category title to the list of its children
(`graph.get(node, [])` in the source); embedded as an association list in
insertion order, mirroring a Python dict. -/
abbrev Graph := List (String × List String)

/-- A traversal entry `(node, parent, path)` as yielded by `walk`
(`yield child, node, levels`). The path snapshot corresponds to the deep copy
taken by `MyIterator.__next__` before the shared `levels` buffer mutates. -/
abbrev Entry := String × String × List Nat

/-- Python dict lookup `m[k]` / `m.get(k)` on the association-list embedding. -/
def alGet {α : Type} : List (String × α) → String → Option α
  | [], _ => none
  | (k', v) :: m, k => if k == k' then some v else alGet m k

/-- Python's `str.lower` on one character: the Unicode lowercase mapping,
spelled out character-wise over the title alphabet of this component — Basic
Latin, Latin-1 Supplement, Latin Extended-A (`Č → č`, `Ĳ → ĳ`, `Ł → ł`,
`Ŋ → ŋ`, `Ÿ → ÿ`, `Ž → ž`, …), the Romanian comma-accent letters `Ș`/`Ț`,
and Cyrillic (`Ѐ–Џ → ѐ–џ`, `А–Я → а–я`, `Ґ → ґ`). Characters with no
lowercase mapping (`×`, `ß`, `ĸ`, `ŉ`, `ſ`, `ı`, digits, punctuation, the
uncased scripts) are unchanged, exactly as in Python. Python's only
non-character-wise lowercasings (Turkish `İ`, whose lowercase is two code
points, and the context-dependent Greek final sigma) fall outside the
modelled alphabet — see `modelledChar`. -/
def pyLowerChar (c : Char) : Char :=
  let n := c.toNat
  if 0x41 ≤ n ∧ n ≤ 0x5A then Char.ofNat (n + 32)
  else if 0xC0 ≤ n ∧ n ≤ 0xDE ∧ n ≠ 0xD7 then Char.ofNat (n + 32)
  else if 0x100 ≤ n ∧ n ≤ 0x12F ∧ n % 2 = 0 then Char.ofNat (n + 1)
  else if 0x132 ≤ n ∧ n ≤ 0x137 ∧ n % 2 = 0 then Char.ofNat (n + 1)
  else if 0x139 ≤ n ∧ n ≤ 0x148 ∧ n % 2 = 1 then Char.ofNat (n + 1)
  else if 0x14A ≤ n ∧ n ≤ 0x177 ∧ n % 2 = 0 then Char.ofNat (n + 1)
  else if n = 0x178 then Char.ofNat 0xFF
  else if 0x179 ≤ n ∧ n ≤ 0x17E ∧ n % 2 = 1 then Char.ofNat (n + 1)
  else if 0x218 ≤ n ∧ n ≤ 0x21B ∧ n % 2 = 0 then Char.ofNat (n + 1)
  else if 0x400 ≤ n ∧ n ≤ 0x40F then Char.ofNat (n + 80)
  else if 0x410 ≤ n ∧ n ≤ 0x42F then Char.ofNat (n + 32)
  else if n = 0x490 then Char.ofNat 0x491
  else c

/-- The alphabet on which `pyLowerChar` is exactly Python's `str.lower`:
Basic Latin and Latin-1, Latin Extended-A without the Turkish `İ` (U+0130,
whose full lowercase is two code points), `Ș ș Ț ț`, and the Cyrillic block
with `Ґ ґ`. Outside it (e.g. Greek capitals, where lowering a final sigma
depends on its position in the word) the character-wise model makes no
claim. -/
def modelledChar (c : Char) : Bool :=
  let n := c.toNat
  (n ≤ 0xFF) || (0x100 ≤ n && n ≤ 0x17F && n ≠ 0x130) ||
    (0x218 ≤ n && n ≤ 0x21B) || (0x400 ≤ n && n ≤ 0x45F) ||
    (n = 0x490 || n = 0x491)

/-- `str.lower` of a title, as its list of code points. -/
def pyLower (s : String) : List Char := s.data.map pyLowerChar

/-- Python string `<`: lexicographic comparison by code point. -/
def pyStrLt : List Char → List Char → Bool
  | [], [] => false
  | [], _ :: _ => true
  | _ :: _, [] => false
  | a :: as, b :: bs => if a < b then true else if b < a then false else pyStrLt as bs

/-- One step of stable insertion sort by the case-insensitive key: the new
element `x` goes before `y` only when its key is strictly smaller, so elements
with equal keys keep their original relative order, exactly as Python's stable
`sorted(children, key=str.lower)`. -/
def insertCI (x : String) : List String → List String
  | [] => [x]
  | y :: ys =>
    if pyStrLt (pyLower x) (pyLower y) then x :: y :: ys else y :: insertCI x ys

/-- `sorted(children, key=str.lower)`: stable case-insensitive sort. -/
def pySorted (l : List String) : List String :=
  l.foldl (fun acc x => insertCI x acc) []

/-- `graph.get(node, [])`. -/
def childrenOf (g : Graph) (node : String) : List String :=
  (alGet g node).getD []

/-- All strings occurring in some child list of the graph; every node the
traversal can ever add to `visited` lives here, which bounds the recursion. -/
def pool (g : Graph) : List String :=
  (g.map (fun p => p.2)).flatten

/-- The `for i, child in enumerate(sorted(children, key=str.lower))` loop body
of `walk`: skip children already on the active path, otherwise yield
`(child, node, levels ++ [i])`, recurse (via `recur`, the traversal at one
fuel unit less) with the child pushed onto `visited`, then continue with the
siblings (the Python `visited.remove` / `levels.pop` backtracking is the
recursion resuming with the caller's unchanged state). -/
def walkKids (recur : String → List Nat → List String → Option (List Entry))
    (node : String) (levels : List Nat) (visited : List String) :
    Nat → List String → Option (List Entry)
  | _, [] => some []
  | i, c :: rest =>
    if visited.contains c then
      walkKids recur node levels visited (i + 1) rest
    else
      match recur c (levels ++ [i]) (visited ++ [c]) with
      | none => none
      | some sub =>
        match walkKids recur node levels visited (i + 1) rest with
        | none => none
        | some tail => some ((c, node, levels ++ [i]) :: sub ++ tail)

/-- `CategoryGraph.walk(graph, node, levels, visited)`. The Python generator
recurses without any structural bound, so the embedding carries explicit fuel:
one unit per recursive call, `none` when the fuel runs out. The termination
theorem shows fuel `(pool g).length + 1` always suffices. -/
def walkF (g : Graph) : Nat → String → List Nat → List String → Option (List Entry)
  | 0, _, _, _ => none
  | f + 1, node, levels, visited =>
    walkKids (walkF g f) node levels visited 0 (pySorted (childrenOf g node))

/-- `walk(graph, node)` with the default `levels=[]`, `visited=set()`: the full
finite list of yielded entries.  Fuel `(pool g).length + 1` is provably enough
(see the termination theorem). -/
def walk (g : Graph) (root : String) : List Entry :=
  (walkF g ((pool g).length + 1) root [] []).getD []

/-! ## The diff comparator (`cmp_tuples` inside `compare_components`) -/

/-- Modelled from the spec: the language-detection collaborator
`ws.ArchWiki.lang` is not part of the sources here; per the spec it is a fixed
total ordering over known language tags with the default tag first. -/
def interlanguageTags : List String := ["Česky", "Dansk", "Deutsch", "Español"]

/-- Modelled from the spec: `detect(title) → (pureTitle, languageTag)` —
`ws.ArchWiki.lang.detect_language` strips a known language tag from the title;
a title with no recognised tag is the default language unchanged. -/
def detect_language (title : String) : String × String :=
  match interlanguageTags.find?
      (fun tag => (' ' :: '(' :: tag.data ++ [')']).isSuffixOf title.data) with
  | some tag => (⟨title.data.take (title.data.length - (tag.data.length + 3))⟩, tag)
  | none => (title, "English")

/-- Modelled from the spec: the rank of a title's detected language tag in the
fixed language ordering, default language (rank 0) first. -/
def localeRank (title : String) : Nat :=
  ("English" :: interlanguageTags).indexOf (detect_language title).2

/-- The sort key a present traversal entry is compared by in `cmp_tuples`:
`(-len(left[2]), lang.detect_language(left[0])[0])` — minus the path length,
then element `[0]` of `detect_language`, i.e. the pure title. -/
abbrev SortKey := Int × String

def sortKey (e : Entry) : SortKey :=
  (-(e.2.2.length : Int), (detect_language e.1).1)

/-- Python `<` on the `(int, str)` key tuples: lexicographic, strings by code
point. -/
def tupLt (a b : SortKey) : Bool :=
  decide (a.1 < b.1) || (decide (a.1 = b.1) && pyStrLt a.2.data b.2.data)

/-- The module-level `cmp(left, right)` helper applied to the key tuples:
`-1` if `left < right`, `1` if `left > right`, else `0`. -/
def cmp (left right : SortKey) : Int :=
  if tupLt left right then -1 else if tupLt right left then 1 else 0

/-- `cmp_tuples(left, right)`: `None` on both sides is equal, `None` compares
greater than any present entry, two present entries compare by their keys. -/
def cmp_tuples (left right : Option Entry) : Int :=
  match left, right with
  | none, none => 0
  | none, some _ => 1
  | some _, none => -1
  | some l, some r => cmp (sortKey l) (sortKey r)

/-! ## The merge loops of `compare_components`

Each Python `while` loop becomes a function from the loop's live variables to
the pairs it yields plus its exit state; `next()` on an exhausted iterator
(the empty list) raises, which the embedding reports as `none` / `.crashed`
while keeping the pairs already yielded. -/

/-- A yielded diff pair. -/
abbrev Pair := Option Entry × Option Entry

instance pairDecEq : DecidableEq Pair := fun a b => instDecidableEqProd a b

/-- `while cmp_tuples(lval, rval) < 0: yield lval, None; lval = next(lgen)` —
used in the main merge loop and in the left drain loop. Returns the yielded
pairs and either the new `(lval, ls)` or `none` when `next` raised. -/
def loopLt (rval lval : Option Entry) (ls : List Entry) :
    List Pair × Option (Option Entry × List Entry) :=
  if cmp_tuples lval rval < 0 then
    match ls with
    | [] => ([(lval, none)], none)
    | x :: t =>
      let (ps, st) := loopLt rval (some x) t
      ((lval, none) :: ps, st)
  else ([], some (lval, ls))

/-- `while cmp_tuples(lval, rval) == 0: yield lval, rval; lval = next(lgen);
rval = next(rgen)` — the pairing loop of the main merge. -/
def loopEqM (lval rval : Option Entry) (ls rs : List Entry) :
    List Pair × Option (Option Entry × Option Entry × List Entry × List Entry) :=
  if cmp_tuples lval rval = 0 then
    match ls, rs with
    | [], _ => ([(lval, rval)], none)
    | _ :: _, [] => ([(lval, rval)], none)
    | x :: t, y :: u =>
      let (ps, st) := loopEqM (some x) (some y) t u
      ((lval, rval) :: ps, st)
  else ([], some (lval, rval, ls, rs))

/-- `while cmp_tuples(lval, rval) > 0: yield None, rval; rval = next(rgen)` —
used in the main merge loop and in the right drain loop. -/
def loopGt (lval rval : Option Entry) (rs : List Entry) :
    List Pair × Option (Option Entry × List Entry) :=
  if cmp_tuples lval rval > 0 then
    match rs with
    | [] => ([(none, rval)], none)
    | y :: u =>
      let (ps, st) := loopGt lval (some y) u
      ((none, rval) :: ps, st)
  else ([], some (rval, rs))

/-- How an outer `while` loop of `compare_components` ended: normally with
state `s`, by an uncaught `StopIteration` from `next()` on an exhausted
iterator (`crashed`), or — for the drain loops, whose bodies can make no
progress — by spinning forever (`hung`, reached only when the per-iteration
fuel, chosen `≥` the number of remaining items `+ 1`, runs out without the
loop consuming anything). -/
inductive RunEnd (σ : Type) where
  | ok (s : σ)
  | crashed
  | hung
deriving DecidableEq

/-- `while lgen and rgen:` — the three-phase main merge loop. -/
def mainLoop (fuel : Nat) (lval rval : Option Entry) (ls rs : List Entry) :
    List Pair × RunEnd (Option Entry × Option Entry × List Entry × List Entry) :=
  match fuel with
  | 0 => ([], .hung)
  | f + 1 =>
    if ls ≠ [] ∧ rs ≠ [] then
      match loopLt rval lval ls with
      | (ps1, none) => (ps1, .crashed)
      | (ps1, some (lval1, ls1)) =>
        match loopEqM lval1 rval ls1 rs with
        | (ps2, none) => (ps1 ++ ps2, .crashed)
        | (ps2, some (lval2, rval2, ls2, rs2)) =>
          match loopGt lval2 rval2 rs2 with
          | (ps3, none) => (ps1 ++ ps2 ++ ps3, .crashed)
          | (ps3, some (rval3, rs3)) =>
            let (ps4, st) := mainLoop f lval2 rval3 ls2 rs3
            (ps1 ++ ps2 ++ ps3 ++ ps4, st)
    else ([], .ok (lval, rval, ls, rs))

/-- `while cmp_tuples(lval, rval) == 0: yield lval, rval; lval = next(lgen);
rval = None` — the pairing loop inside the left drain. -/
def loopEqDL (lval rval : Option Entry) (ls : List Entry) :
    List Pair × Option (Option Entry × Option Entry × List Entry) :=
  if cmp_tuples lval rval = 0 then
    match ls with
    | [] => ([(lval, rval)], none)
    | x :: t =>
      let (ps, st) := loopEqDL (some x) none t
      ((lval, rval) :: ps, st)
  else ([], some (lval, rval, ls))

/-- `while lgen:` — the left drain loop after the main merge. -/
def drainL (fuel : Nat) (lval rval : Option Entry) (ls : List Entry) :
    List Pair × RunEnd (Option Entry × Option Entry) :=
  match fuel with
  | 0 => ([], .hung)
  | f + 1 =>
    if ls ≠ [] then
      match loopLt rval lval ls with
      | (ps1, none) => (ps1, .crashed)
      | (ps1, some (lval1, ls1)) =>
        match loopEqDL lval1 rval ls1 with
        | (ps2, none) => (ps1 ++ ps2, .crashed)
        | (ps2, some (lval2, rval2, ls2)) =>
          let (ps3, st) := drainL f lval2 rval2 ls2
          (ps1 ++ ps2 ++ ps3, st)
    else ([], .ok (lval, rval))

/-- `while cmp_tuples(lval, rval) == 0: yield lval, rval; lval = None;
rval = next(rgen)` — the pairing loop inside the right drain. -/
def loopEqDR (lval rval : Option Entry) (rs : List Entry) :
    List Pair × Option (Option Entry × Option Entry × List Entry) :=
  if cmp_tuples lval rval = 0 then
    match rs with
    | [] => ([(lval, rval)], none)
    | y :: u =>
      let (ps, st) := loopEqDR none (some y) u
      ((lval, rval) :: ps, st)
  else ([], some (lval, rval, rs))

/-- `while rgen:` — the right drain loop after the main merge. -/
def drainR (fuel : Nat) (lval rval : Option Entry) (rs : List Entry) :
    List Pair × RunEnd (Option Entry × Option Entry) :=
  match fuel with
  | 0 => ([], .hung)
  | f + 1 =>
    if rs ≠ [] then
      match loopEqDR lval rval rs with
      | (ps1, none) => (ps1, .crashed)
      | (ps1, some (lval1, rval1, rs1)) =>
        match loopGt lval1 rval1 rs1 with
        | (ps2, none) => (ps1 ++ ps2, .crashed)
        | (ps2, some (rval2, rs2)) =>
          let (ps3, st) := drainR f lval1 rval2 rs2
          (ps1 ++ ps2 ++ ps3, st)
    else ([], .ok (lval, rval))

/-- How a run of the `compare_components` generator ends, seen by a consumer
iterating it: `finished` — the generator function falls off its end after the
trailing `yield lval, rval`; `empty` — the initial `lval = next(lgen);
rval = next(rgen)` raised `StopIteration`, caught by the `except`, and the
generator `return`s at once, so iteration stops with nothing yielded (the
`return None, None` value is invisible to iteration); `crashed` — an uncaught
`StopIteration` from `next()` on an exhausted iterator inside a loop;
`hung` — a drain loop spins forever. -/
inductive DiffStatus where
  | finished
  | empty
  | crashed
  | hung
deriving DecidableEq

/-- `CategoryGraph.compare_components(graph, left, right)`: the list of pairs
the generator yields, together with how it ends. -/
def compare_components (g : Graph) (left right : String) :
    List Pair × DiffStatus :=
  match walk g left, walk g right with
  | [], _ => ([], .empty)
  | _ :: _, [] => ([], .empty)
  | l0 :: ls0, r0 :: rs0 =>
    match mainLoop (ls0.length + rs0.length + 1) (some l0) (some r0) ls0 rs0 with
    | (ps, .crashed) => (ps, .crashed)
    | (ps, .hung) => (ps, .hung)
    | (ps, .ok (lv, rv, ls1, rs1)) =>
      match drainL (ls1.length + 1) lv rv ls1 with
      | (ps2, .crashed) => (ps ++ ps2, .crashed)
      | (ps2, .hung) => (ps ++ ps2, .hung)
      | (ps2, .ok (lv2, rv2)) =>
        match drainR (rs1.length + 1) lv2 rv2 rs1 with
        | (ps3, .crashed) => (ps ++ ps2 ++ ps3, .crashed)
        | (ps3, .hung) => (ps ++ ps2 ++ ps3, .hung)
        | (ps3, .ok (lv3, rv3)) =>
          (ps ++ ps2 ++ ps3 ++ [(lv3, rv3)], .finished)

/-! ## `build_graph` -/

/-- The `categoryinfo` record attached to a category page by the data source
(`{"files": …, "pages": …, "subcats": …, "size": …}`). -/
structure CategoryInfo where
  files : Nat
  pages : Nat
  subcats : Nat
  size : Nat
deriving DecidableEq

/-- The all-zero default `info.setdefault(page["title"], {"files": 0,
"pages": 0, "subcats": 0, "size": 0})` inserts. -/
def zeroInfo : CategoryInfo := ⟨0, 0, 0, 0⟩

/-- One page record yielded by the API generator,-as consumed by
`build_graph`: its title, the titles of its non-hidden categories when the
`"categories"` field is present, and its `"categoryinfo"` when present
(absent for empty categories). -/
structure PageRecord where
  title : String
  categories : Option (List String)
  categoryinfo : Option CategoryInfo
deriving DecidableEq

/-- `m.setdefault(k, []).extend(vs)`: extend the list at `k`, first inserting
an empty one if `k` is absent (a fresh dict key goes to the end). -/
def alExtend (m : List (String × List String)) (k : String) (vs : List String) :
    List (String × List String) :=
  if (alGet m k).isSome then
    m.map (fun p => if p.1 == k then (p.1, p.2 ++ vs) else p)
  else m ++ [(k, vs)]

/-- `m.setdefault(k, []).append(v)`. -/
def alAppend (m : List (String × List String)) (k : String) (v : String) :
    List (String × List String) :=
  alExtend m k [v]

/-- `info.setdefault(k, {zeros})`: insert the all-zero record if absent. -/
def alSetdefault (m : List (String × CategoryInfo)) (k : String) :
    List (String × CategoryInfo) :=
  if (alGet m k).isSome then m else m ++ [(k, zeroInfo)]

/-- `i.update(ci)` where `i` is the dict stored at `k`: overwrite the stored
record (the API's `categoryinfo` carries all four fields). -/
def alUpdate (m : List (String × CategoryInfo)) (k : String) (v : CategoryInfo) :
    List (String × CategoryInfo) :=
  m.map (fun p => if p.1 == k then (p.1, v) else p)

/-- The state built by `build_graph`:
`(graph_parents, graph_subcats, info)`. -/
abbrev BuildState :=
  List (String × List String) × List (String × List String) ×
    List (String × CategoryInfo)

/-- The body of the `for page in self.api.generator(…)` loop of
`build_graph`. -/
def buildStep (st : BuildState) (page : PageRecord) : BuildState :=
  let (ps, cs, inf) := st
  let (ps, cs) :=
    match page.categories with
    | some cats =>
      (alExtend ps page.title cats,
        cats.foldl (fun acc cat => alAppend acc cat page.title) cs)
    | none => (ps, cs)
  let inf := alSetdefault inf page.title
  let inf :=
    match page.categoryinfo with
    | some ci => alUpdate inf page.title ci
    | none => inf
  (ps, cs, inf)

/-- `CategoryGraph.build_graph(self)` over the list of records the API
generator yields: returns `(graph_parents, graph_subcats, info)`. -/
def build_graph (pages : List PageRecord) : BuildState :=
  pages.foldl buildStep ([], [], [])

/-! ## Verification-layer definitions -/

/-- The number of potential traversal targets not yet on the active path:
the measure that bounds the recursion depth of `walk`. -/
def remaining (g : Graph) (visited : List String) : Nat :=
  ((pool g).filter (fun c => !(visited.contains c))).length

/-! # Theorems -/

/-- Claim C1 (code bug). Left traversal empty, right traversal non-empty: on
the concrete graph with `children["R"] = ["A"]` and the childless left root
`"L"`, the right traversal is `[("A", "R", [0])]`, yet `compare_components`
yields no pairs at all: the initial `lval = next(lgen)` raises
`StopIteration`, the `except` catches it and the generator returns
immediately, so the claimed `(None, right)` pairs are never produced. -/
theorem c1_left_empty_emits_nothing :
    walk [("R", ["A"])] "R" = [("A", "R", [0])] ∧
    compare_components [("R", ["A"])] "L" "R" = ([], .empty) ∧
    compare_components [("R", ["A"])] "R" "L" = ([], .empty) := by
  refine ⟨by decide, by decide, by decide⟩

/-- Claim C2 (code bug). Two empty roots: on the empty graph both traversals
are empty and `compare_components` yields zero pairs — the `return None,
None` is only the generator's return value, invisible to iteration — instead
of the claimed single `(None, None)` pair. -/
theorem c2_both_empty_emits_nothing :
    walk [] "A" = [] ∧ walk [] "B" = [] ∧
    compare_components [] "A" "B" = ([], .empty) := by
  refine ⟨by decide, by decide, by decide⟩

/-- Claim C4 (code bug). `compare_components` does call `next()` on an
already-exhausted iterator: with `children["L"] = ["a", "b"]` and
`children["R"] = ["y", "z"]` every left key is below every right key, the
`< 0` merge loop consumes the whole left side without rechecking `lgen`, and
its final `lval = next(lgen)` hits the exhausted branch (an uncaught
`StopIteration`) after both left entries were yielded one-sided. -/
theorem c4_exhausted_advance_reachable :
    compare_components [("L", ["a", "b"]), ("R", ["y", "z"])] "L" "R" =
      ([(some ("a", "L", [0]), none), (some ("b", "L", [1]), none)],
        .crashed) := by decide

/-- Claim C5 counterexample. The merge comparator does not order entries by
the key `(-length(path), localeRank(node))`: the entries `("Apple", "L",
[0])` and `("Banana", "R", [0])` have identical claimed keys — same depth,
and both titles carry the default language, `localeRank` 0 — so the claim
makes them compare equal, yet `cmp_tuples` returns `-1`, because the code
compares element `[0]` of `detect_language`, the pure title string. -/
theorem c5_comparator_not_localeRank :
    ((-(1 : Int), localeRank "Apple") = ((-(1 : Int), localeRank "Banana")
      : Int × Nat)) ∧
    cmp_tuples (some ("Apple", "L", [0])) (some ("Banana", "R", [0])) = -1 := by
  refine ⟨by decide, by decide⟩

/-- Claim C6 counterexample. On the two-cycle graph `children["X"] = ["Y"]`,
`children["Y"] = ["X"]`, the walk from `"X"` does not stop after
`("Y", "X", [0])`: the root `"X"` is never placed in `visited`, so the cycle
re-enters it once and a second entry `("X", "Y", [0, 0])` is yielded. -/
theorem c6_cycle_walk_not_single :
    walk [("X", ["Y"]), ("Y", ["X"])] "X" ≠ [("Y", "X", [0])] := by decide

/-- Claim C6 amended. Walking `children["X"] = ["Y"]`, `children["Y"] =
["X"]` from `"X"` yields exactly `("Y", "X", [0])` followed by
`("X", "Y", [0, 0])` — the back-edge to the unprotected root is taken once,
after which `"Y"` is on the active path and the traversal terminates. -/
theorem c6_cycle_walk_two_entries :
    walk [("X", ["Y"]), ("Y", ["X"])] "X" =
      [("Y", "X", [0]), ("X", "Y", [0, 0])] := by decide

/-- Claim C7 counterexample. After building from the single record
`{title: "Category:A", categories: ["Category:B"]}` (no categoryinfo), the
node `"Category:B"` is a key of `children` but `info` has no entry for it:
only record titles ever reach `info.setdefault`, and a category that exists
purely by reference is never a record. -/
theorem c7_referenced_key_missing_info :
    (alGet (build_graph [⟨"Category:A", some ["Category:B"], none⟩]).2.1
      "Category:B").isSome ∧
    alGet (build_graph [⟨"Category:A", some ["Category:B"], none⟩]).2.2
      "Category:B" = none := by
  refine ⟨by decide, by decide⟩

/-- Claim C10. First conjunct — whenever `compare_components` finishes its
merge and drain loops without raising (status `finished`), the pairs it
yielded are the merge-loop pairs, the two drain-loop pair blocks, and then
exactly one final trailing pair `(lv, rv)` holding the residual left and
right values the drain loops ended with (the trailing `yield lval, rval`).
Second conjunct — in particular, when each traversal yields exactly one
entry, the merge and drain loops are all skipped (both lookahead iterators
are exhausted as soon as the initial values are pulled) and the two residual
entries are emitted together as the single pair, no matter how their
comparator keys relate. -/
theorem c10_trailing_residual_pair :
    (∀ (g : Graph) (L R : String) (ps : List Pair),
      compare_components g L R = (ps, .finished) →
      ∃ mp dlp drp lv rv,
        ps = mp ++ dlp ++ drp ++ [(lv, rv)] ∧
        ∃ l0 ls0 r0 rs0 lv1 rv1 ls1 rs1 lv2 rv2,
          walk g L = l0 :: ls0 ∧ walk g R = r0 :: rs0 ∧
          mainLoop (ls0.length + rs0.length + 1) (some l0) (some r0) ls0 rs0 =
            (mp, .ok (lv1, rv1, ls1, rs1)) ∧
          drainL (ls1.length + 1) lv1 rv1 ls1 = (dlp, .ok (lv2, rv2)) ∧
          drainR (rs1.length + 1) lv2 rv2 rs1 = (drp, .ok (lv, rv))) ∧
    (∀ (g : Graph) (L R : String) (l r : Entry),
      walk g L = [l] → walk g R = [r] →
      compare_components g L R = ([(some l, some r)], .finished)) := by
  constructor
  · intro g L R ps h
    unfold compare_components at h
    split at h
    · simp at h
    · simp at h
    · rename_i l0 ls0 r0 rs0 hL hR
      split at h
      · simp at h
      · simp at h
      · rename_i mp lv1 rv1 ls1 rs1 hm
        split at h
        · simp at h
        · simp at h
        · rename_i dlp lv2 rv2 hdl
          split at h
          · simp at h
          · simp at h
          · rename_i drp lv3 rv3 hdr
            simp only [Prod.mk.injEq] at h
            exact ⟨mp, dlp, drp, lv3, rv3, h.1.symm,
              l0, ls0, r0, rs0, lv1, rv1, ls1, rs1, lv2, rv2,
              hL, hR, hm, hdl, hdr⟩
  · intro g L R l r hL hR
    unfold compare_components
    rw [hL, hR]
    simp [mainLoop, drainL, drainR]

/-- Witness for C10 at a concrete graph whose two singleton entries have
different comparator keys (`"apple"` vs `"zebra"`, same depth): the finishing
run decomposes into empty loop blocks plus the trailing residual pair, which
is also the whole output. -/
theorem c10_witness :
    (∃ mp dlp drp lv rv,
      [(some ("apple", "L", [0]), some ("zebra", "R", ([0] : List Nat)))] =
        mp ++ dlp ++ drp ++ [(lv, rv)] ∧
      ∃ l0 ls0 r0 rs0 lv1 rv1 ls1 rs1 lv2 rv2,
        walk [("L", ["apple"]), ("R", ["zebra"])] "L" = l0 :: ls0 ∧
        walk [("L", ["apple"]), ("R", ["zebra"])] "R" = r0 :: rs0 ∧
        mainLoop (ls0.length + rs0.length + 1) (some l0) (some r0) ls0 rs0 =
          (mp, .ok (lv1, rv1, ls1, rs1)) ∧
        drainL (ls1.length + 1) lv1 rv1 ls1 = (dlp, .ok (lv2, rv2)) ∧
        drainR (rs1.length + 1) lv2 rv2 rs1 = (drp, .ok (lv, rv))) ∧
    compare_components [("L", ["apple"]), ("R", ["zebra"])] "L" "R" =
      ([(some ("apple", "L", [0]), some ("zebra", "R", [0]))], .finished) :=
  ⟨c10_trailing_residual_pair.1 [("L", ["apple"]), ("R", ["zebra"])] "L" "R"
      [(some ("apple", "L", [0]), some ("zebra", "R", [0]))] (by decide),
    c10_trailing_residual_pair.2 [("L", ["apple"]), ("R", ["zebra"])] "L" "R"
      ("apple", "L", [0]) ("zebra", "R", [0]) (by decide) (by decide)⟩

theorem pyStrLt_irrefl (s : List Char) : pyStrLt s s = false := by
  induction s with
  | nil => rfl
  | cons a as ih => simp [pyStrLt, ih]

theorem tupLt_irrefl (k : SortKey) : tupLt k k = false := by
  simp [tupLt, pyStrLt_irrefl]

theorem cmp_tuples_self (e : Entry) : cmp_tuples (some e) (some e) = 0 := by
  simp [cmp_tuples, cmp, tupLt_irrefl]

/-- The pairing loop of the main merge, fed the same list on both sides from
equal current values, pairs everything in lockstep and then crashes trying to
advance the exhausted left iterator. -/
theorem loopEqM_self (e : Entry) (t : List Entry) :
    loopEqM (some e) (some e) t t =
      ((e :: t).map (fun z => (some z, some z)), none) := by
  induction t generalizing e with
  | nil => simp [loopEqM, cmp_tuples_self]
  | cons x t' ih => simp [loopEqM, cmp_tuples_self, ih]

/-- Diffing a root against itself yields exactly the traversal entries paired
with themselves (after which, for two or more entries, the generator dies in
the pairing loop — the pairs already yielded are unaffected). -/
theorem compare_components_self (g : Graph) (R : String) :
    (compare_components g R R).1 =
      (walk g R).map (fun e => (some e, some e)) := by
  unfold compare_components
  cases hw : walk g R with
  | nil => simp
  | cons e t =>
    cases t with
    | nil => simp [mainLoop, drainL, drainR]
    | cons x t' => simp [mainLoop, loopLt, cmp_tuples_self, loopEqM_self]

/-- Claim C3. `compare_components(graph, R, R)` emits only two-sided pairs —
never `(x, None)` or `(None, x)` — and every entry of the traversal of `R`
appears in an emitted pair. -/
theorem c3_same_root_two_sided (g : Graph) (R : String) :
    (∀ p ∈ (compare_components g R R).1, ∃ e : Entry, p = (some e, some e)) ∧
    (∀ e ∈ walk g R, (some e, some e) ∈ (compare_components g R R).1) := by
  constructor
  · intro p hp
    rw [compare_components_self] at hp
    obtain ⟨e, _, rfl⟩ := List.mem_map.mp hp
    exact ⟨e, rfl⟩
  · intro e he
    rw [compare_components_self]
    exact List.mem_map_of_mem _ he

/-- Witness for C3 on a concrete two-entry subtree. -/
theorem c3_witness :
    (∀ p ∈ (compare_components [("R", ["p", "q"])] "R" "R").1,
      ∃ e : Entry, p = (some e, some e)) ∧
    (∀ e ∈ walk [("R", ["p", "q"])] "R",
      (some e, some e) ∈ (compare_components [("R", ["p", "q"])] "R" "R").1) :=
  c3_same_root_two_sided [("R", ["p", "q"])] "R"

theorem pyStrLt_asymm (a : List Char) : ∀ b, pyStrLt a b = true →
    pyStrLt b a = false := by
  induction a with
  | nil => intro b h; cases b with
    | nil => simp [pyStrLt] at h
    | cons y ys => simp [pyStrLt]
  | cons x xs ih =>
    intro b h
    cases b with
    | nil => simp [pyStrLt] at h
    | cons y ys =>
      rcases lt_trichotomy x y with hlt | heq | hgt
      · simp [pyStrLt, hlt, asymm hlt]
      · subst heq
        rw [pyStrLt] at h ⊢
        simp only [lt_irrefl, if_false] at h ⊢
        exact ih ys h
      · rw [pyStrLt] at h
        simp [hgt, asymm hgt] at h

theorem pyStrLt_eq_of_not_lt (a : List Char) : ∀ b, pyStrLt a b = false →
    pyStrLt b a = false → a = b := by
  induction a with
  | nil => intro b h1 _; cases b with
    | nil => rfl
    | cons y ys => simp [pyStrLt] at h1
  | cons x xs ih =>
    intro b h1 h2
    cases b with
    | nil => simp [pyStrLt] at h2
    | cons y ys =>
      rcases lt_trichotomy x y with hlt | heq | hgt
      · simp [pyStrLt, hlt] at h1
      · subst heq
        rw [pyStrLt] at h1 h2
        simp only [lt_irrefl, if_false] at h1 h2
        rw [ih ys h1 h2]
      · rw [pyStrLt] at h2
        simp [hgt, asymm hgt] at h2

/-- What `tupLt` on the entry keys says in terms of path depth and pure
title: strictly greater depth first, then the pure title by code point. -/
theorem tupLt_sortKey_iff (a b : Entry) :
    tupLt (sortKey a) (sortKey b) = true ↔
      (b.2.2.length < a.2.2.length ∨ (a.2.2.length = b.2.2.length ∧
        pyStrLt (detect_language a.1).1.data (detect_language b.1).1.data
          = true)) := by
  simp only [tupLt, sortKey, Bool.or_eq_true, Bool.and_eq_true,
    decide_eq_true_eq, neg_lt_neg_iff, Nat.cast_lt, neg_inj, Nat.cast_inj]

theorem tupLt_sortKey_asymm (a b : Entry)
    (h : tupLt (sortKey a) (sortKey b) = true) :
    tupLt (sortKey b) (sortKey a) = false := by
  rw [tupLt_sortKey_iff] at h
  cases htr : tupLt (sortKey b) (sortKey a) with
  | false => rfl
  | true =>
    rw [tupLt_sortKey_iff] at htr
    rcases h with h | ⟨hlen, hs⟩ <;> rcases htr with h' | ⟨hlen', hs'⟩
    · omega
    · omega
    · omega
    · rw [pyStrLt_asymm _ _ hs] at hs'
      exact (Bool.false_ne_true hs').elim

/-- Claim C5 amended. For two present traversal entries the comparator is the
lexicographic comparison of the keys `(-length(path), pureTitle(node))`,
where `pureTitle` is the title with its detected language tag stripped
(element `[0]` of the detection collaborator's result) compared by code
point; entries with equal keys compare as equal. -/
theorem c5_amended_comparator (e1 e2 : Entry) :
    (cmp_tuples (some e1) (some e2) = -1 ↔
      (e2.2.2.length < e1.2.2.length ∨ (e1.2.2.length = e2.2.2.length ∧
        pyStrLt (detect_language e1.1).1.data (detect_language e2.1).1.data
          = true))) ∧
    (cmp_tuples (some e1) (some e2) = 0 ↔
      (e1.2.2.length = e2.2.2.length ∧
        (detect_language e1.1).1 = (detect_language e2.1).1)) ∧
    (cmp_tuples (some e1) (some e2) = 1 ↔
      (e1.2.2.length < e2.2.2.length ∨ (e2.2.2.length = e1.2.2.length ∧
        pyStrLt (detect_language e2.1).1.data (detect_language e1.1).1.data
          = true))) := by
  show (cmp (sortKey e1) (sortKey e2) = -1 ↔ _) ∧
    (cmp (sortKey e1) (sortKey e2) = 0 ↔ _) ∧
    (cmp (sortKey e1) (sortKey e2) = 1 ↔ _)
  unfold cmp
  refine ⟨?_, ?_, ?_⟩
  · constructor
    · intro h
      by_cases h12 : tupLt (sortKey e1) (sortKey e2) = true
      · exact (tupLt_sortKey_iff e1 e2).mp h12
      · rw [if_neg h12] at h
        split at h <;> omega
    · intro h
      rw [if_pos ((tupLt_sortKey_iff e1 e2).mpr h)]
  · constructor
    · intro h
      by_cases h12 : tupLt (sortKey e1) (sortKey e2) = true
      · rw [if_pos h12] at h; omega
      · rw [if_neg h12] at h
        by_cases h21 : tupLt (sortKey e2) (sortKey e1) = true
        · rw [if_pos h21] at h; omega
        · rw [Bool.not_eq_true] at h12 h21
          rw [tupLt] at h12 h21
          simp only [Bool.or_eq_false_iff, Bool.and_eq_false_iff,
            decide_eq_false_iff_not, decide_eq_true_eq, sortKey]
            at h12 h21
          obtain ⟨hn1, hd1⟩ := h12
          obtain ⟨hn2, hd2⟩ := h21
          have hlen : e1.2.2.length = e2.2.2.length := by omega
          refine ⟨hlen, ?_⟩
          have hs1 : pyStrLt (detect_language e1.1).1.data
              (detect_language e2.1).1.data = false := by
            rcases hd1 with hd1 | hd1
            · exfalso; apply hd1; simp [hlen]
            · exact hd1
          have hs2 : pyStrLt (detect_language e2.1).1.data
              (detect_language e1.1).1.data = false := by
            rcases hd2 with hd2 | hd2
            · exfalso; apply hd2; simp [hlen]
            · exact hd2
          exact String.ext (pyStrLt_eq_of_not_lt _ _ hs1 hs2)
    · rintro ⟨hlen, hpure⟩
      have h12 : tupLt (sortKey e1) (sortKey e2) = false := by
        rw [Bool.eq_false_iff]
        intro hc
        rw [tupLt_sortKey_iff] at hc
        rcases hc with hc | ⟨_, hc⟩
        · omega
        · rw [hpure, pyStrLt_irrefl] at hc
          exact Bool.false_ne_true hc
      have h21 : tupLt (sortKey e2) (sortKey e1) = false := by
        rw [Bool.eq_false_iff]
        intro hc
        rw [tupLt_sortKey_iff] at hc
        rcases hc with hc | ⟨_, hc⟩
        · omega
        · rw [hpure, pyStrLt_irrefl] at hc
          exact Bool.false_ne_true hc
      rw [if_neg (by simp [h12]), if_neg (by simp [h21])]
  · constructor
    · intro h
      by_cases h12 : tupLt (sortKey e1) (sortKey e2) = true
      · rw [if_pos h12] at h; omega
      · rw [if_neg h12] at h
        by_cases h21 : tupLt (sortKey e2) (sortKey e1) = true
        · exact (tupLt_sortKey_iff e2 e1).mp h21
        · rw [if_neg h21] at h; omega
    · intro h
      have h21 : tupLt (sortKey e2) (sortKey e1) = true :=
        (tupLt_sortKey_iff e2 e1).mpr h
      rw [if_neg (by simp [tupLt_sortKey_asymm e2 e1 h21]), if_pos h21]

/-- Witness for the amended C5 at concrete entries of different depths. -/
theorem c5_amended_witness :
    cmp_tuples (some ("Deep", "P", [0, 1])) (some ("Shallow", "Q", [0])) = -1 :=
  (c5_amended_comparator ("Deep", "P", [0, 1]) ("Shallow", "Q", [0])).1.mpr
    (by decide)

theorem mem_insertCI (x y : String) (l : List String) :
    y ∈ insertCI x l ↔ y = x ∨ y ∈ l := by
  induction l with
  | nil => simp [insertCI]
  | cons a as ih =>
    rw [insertCI]
    split
    · simp [List.mem_cons]
    · simp only [List.mem_cons, ih]
      tauto

theorem mem_pySorted_aux (l : List String) : ∀ acc y,
    y ∈ l.foldl (fun a x => insertCI x a) acc ↔ y ∈ acc ∨ y ∈ l := by
  induction l with
  | nil => simp
  | cons b bs ih =>
    intro acc y
    rw [List.foldl_cons, ih, mem_insertCI]
    simp only [List.mem_cons]
    tauto

theorem mem_pySorted (l : List String) (y : String) :
    y ∈ pySorted l ↔ y ∈ l := by
  rw [pySorted, mem_pySorted_aux]
  simp

/-- On a one-level graph the sibling loop yields exactly the stably sorted
children with their enumeration indices. -/
theorem walkKids_flat (cs : List String) (f : Nat) :
    ∀ (l : List String), (∀ c ∈ l, c ≠ "L") → ∀ i,
      walkKids (walkF [("L", cs)] (f + 1)) "L" [] [] i l =
        some ((l.enumFrom i).map (fun ic => (ic.2, "L", [ic.1]))) := by
  intro l
  induction l with
  | nil => intro _ i; rfl
  | cons c rest ih =>
    intro hne i
    have hcL : (c == "L") = false :=
      beq_eq_false_iff_ne.mpr (hne c (List.mem_cons_self c rest))
    have hchild : childrenOf [("L", cs)] c = [] := by
      simp [childrenOf, alGet, hcL]
    rw [walkKids]
    simp only [List.contains_nil, Bool.false_eq_true, if_false, List.nil_append]
    rw [walkF, hchild]
    show (match walkKids (walkF [("L", cs)] f) c [i] [c] 0 (pySorted []) with
      | none => none
      | some sub =>
        match walkKids (walkF [("L", cs)] (f + 1)) "L" [] [] (i + 1) rest with
        | none => none
        | some tail => some ((c, "L", [i]) :: sub ++ tail)) = _
    rw [ih (fun c hc => hne c (List.mem_cons_of_mem _ hc)) (i + 1)]
    have hempty : walkKids (walkF [("L", cs)] f) c [i] [c] 0 (pySorted []) =
        some [] := rfl
    rw [hempty]
    simp [List.enumFrom]

/-- `walk` on the one-level graph `children["L"] = cs` (with `"L"` not its own
child) yields exactly the stably case-insensitively sorted children. -/
theorem walk_flat (cs : List String) (h : "L" ∉ cs) :
    walk [("L", cs)] "L" =
      (pySorted cs).enum.map (fun ic => (ic.2, "L", [ic.1])) := by
  have hpool : pool [("L", cs)] = cs := by simp [pool]
  have hchild : childrenOf [("L", cs)] "L" = cs := by
    simp [childrenOf, alGet]
  unfold walk
  rw [hpool]
  cases cs with
  | nil => rfl
  | cons c cs' =>
    rw [walkF, hchild]
    simp only [List.length_cons]
    rw [walkKids_flat (c :: cs') cs'.length (pySorted (c :: cs'))
      (fun x hx => by
        intro hxL
        subst hxL
        exact h ((mem_pySorted _ _).mp hx)) 0]
    rfl

/-- Claim C8 counterexample. With children `["b", "B"]` — equal
case-insensitively — the walk visits `b` before `B` (the input order:
Python's `sorted` is stable), not the natural string order `B, b` the claim
requires. -/
theorem c8_tie_not_natural_order :
    walk [("L", ["b", "B"])] "L" ≠ [("B", "L", [0]), ("b", "L", [1])] := by
  decide

/-- Claim C8 amended. At every node the children are visited in
case-insensitively sorted order, with ties broken by their original position
in the child list (Python's `sorted` is stable), not by the natural string
order; shown in general on one-level graphs whose titles stay inside the
alphabet on which the embedded lowercasing is exactly Python's `str.lower`
(`modelledChar`), plus the claim's instance `{"b", "A", "c"} ↦ A, b, c`, the
ASCII tie instances `["b", "B"] ↦ b, B` and `["B", "b"] ↦ B, b`, and the
non-ASCII tie instances `["č", "Č"] ↦ č, Č` and `["Č", "č"] ↦ Č, č`. -/
theorem c8_amended_stable_ci_sort :
    (∀ cs : List String,
      (∀ t ∈ cs, ∀ ch ∈ t.data, modelledChar ch = true) → "L" ∉ cs →
      walk [("L", cs)] "L" =
        (pySorted cs).enum.map (fun ic => (ic.2, "L", [ic.1]))) ∧
    walk [("L", ["b", "A", "c"])] "L" =
      [("A", "L", [0]), ("b", "L", [1]), ("c", "L", [2])] ∧
    walk [("L", ["b", "B"])] "L" = [("b", "L", [0]), ("B", "L", [1])] ∧
    walk [("L", ["B", "b"])] "L" = [("B", "L", [0]), ("b", "L", [1])] ∧
    walk [("L", ["č", "Č"])] "L" = [("č", "L", [0]), ("Č", "L", [1])] ∧
    walk [("L", ["Č", "č"])] "L" = [("Č", "L", [0]), ("č", "L", [1])] :=
  ⟨fun cs _ h => walk_flat cs h, by decide, by decide, by decide, by decide,
    by decide⟩

/-- Witness for the amended C8 on a concrete child list with a non-ASCII
case-insensitive tie. -/
theorem c8_amended_witness :
    (∀ t ∈ ["č", "Č"], ∀ ch ∈ t.data, modelledChar ch = true) ∧
    "L" ∉ ["č", "Č"] ∧
    walk [("L", ["č", "Č"])] "L" =
      (pySorted ["č", "Č"]).enum.map (fun ic => (ic.2, "L", [ic.1])) :=
  ⟨by decide, by decide,
    c8_amended_stable_ci_sort.1 ["č", "Č"] (by decide) (by decide)⟩

theorem alGet_some_mem_map_snd {α : Type} (m : List (String × α)) (k : String)
    (v : α) (h : alGet m k = some v) : v ∈ m.map (fun p => p.2) := by
  induction m with
  | nil => simp [alGet] at h
  | cons p m' ih =>
    obtain ⟨k', v'⟩ := p
    rw [alGet] at h
    split at h
    · simp only [Option.some.injEq] at h
      subst h
      exact List.mem_cons_self _ _
    · exact List.mem_cons_of_mem _ (ih h)

theorem childrenOf_subset_pool (g : Graph) (node c : String)
    (h : c ∈ childrenOf g node) : c ∈ pool g := by
  unfold childrenOf at h
  cases hg : alGet g node with
  | none => rw [hg] at h; simp at h
  | some ls =>
    rw [hg] at h
    simp only [Option.getD_some] at h
    exact List.mem_flatten.mpr ⟨ls, alGet_some_mem_map_snd g node ls hg, h⟩

theorem length_filter_ne_lt (m : List String) (c : String) (h : c ∈ m) :
    (m.filter (fun x => !(x == c))).length < m.length := by
  induction m with
  | nil => simp at h
  | cons a as ih =>
    by_cases hac : a = c
    · subst hac
      rw [List.filter_cons]
      simp only [beq_self_eq_true, Bool.not_true, Bool.false_eq_true, if_false,
        List.length_cons]
      exact Nat.lt_succ_of_le (List.length_filter_le _ as)
    · rw [List.filter_cons]
      have hb : (a == c) = false := beq_eq_false_iff_ne.mpr hac
      simp only [hb, Bool.not_false, if_true, List.length_cons]
      have hc : c ∈ as := by
        rcases List.mem_cons.mp h with h' | h'
        · exact absurd h'.symm hac
        · exact h'
      exact Nat.succ_lt_succ (ih hc)

theorem contains_append_one (visited : List String) (c x : String) :
    (visited ++ [c]).contains x = (visited.contains x || x == c) := by
  induction visited with
  | nil =>
    simp only [List.nil_append, List.contains_cons, List.contains_nil,
      Bool.or_false, Bool.false_or]
  | cons a as ih =>
    simp only [List.cons_append, List.contains_cons, ih, Bool.or_assoc]

/-- Pushing a fresh pool member onto the active path strictly shrinks the
set of nodes the traversal can still visit. -/
theorem remaining_lt (g : Graph) (visited : List String) (c : String)
    (hp : c ∈ pool g) (hv : visited.contains c = false) :
    remaining g (visited ++ [c]) < remaining g visited := by
  unfold remaining
  have hcong : (pool g).filter (fun x => !((visited ++ [c]).contains x)) =
      ((pool g).filter (fun x => !(visited.contains x))).filter
        (fun x => !(x == c)) := by
    rw [List.filter_filter]
    apply List.filter_congr
    intro x _
    rw [contains_append_one]
    cases visited.contains x <;> cases x == c <;> rfl
  rw [hcong]
  refine length_filter_ne_lt _ c (List.mem_filter.mpr ⟨hp, ?_⟩)
  show (!visited.contains c) = true
  simpa using hv

/-- Fuel larger than the number of not-yet-visited pool members is always
enough for `walkF` to complete. -/
theorem walk_fuel_sufficient : ∀ (fuel : Nat) (g : Graph) (node : String)
    (levels : List Nat) (visited : List String),
    remaining g visited < fuel →
    (walkF g fuel node levels visited).isSome := by
  intro fuel
  induction fuel with
  | zero => intro g node levels visited h; exact absurd h (Nat.not_lt_zero _)
  | succ f ih =>
    intro g node levels visited h
    rw [walkF]
    have hmem : ∀ c ∈ pySorted (childrenOf g node), c ∈ pool g := fun c hc =>
      childrenOf_subset_pool g node c ((mem_pySorted _ _).mp hc)
    have hrem : remaining g visited ≤ f := Nat.lt_succ_iff.mp h
    suffices H : ∀ (l : List String), (∀ c ∈ l, c ∈ pool g) → ∀ i,
        (walkKids (walkF g f) node levels visited i l).isSome from
      H _ hmem 0
    intro l
    induction l with
    | nil => intro _ i; simp [walkKids]
    | cons c rest ihl =>
      intro hl i
      rw [walkKids]
      by_cases hvc : visited.contains c = true
      · rw [if_pos hvc]
        exact ihl (fun d hd => hl d (List.mem_cons_of_mem _ hd)) (i + 1)
      · rw [if_neg hvc]
        have hvc' : visited.contains c = false := by
          cases hcc : visited.contains c
          · rfl
          · exact absurd hcc hvc
        have hc : c ∈ pool g := hl c (List.mem_cons_self _ _)
        have hless : remaining g (visited ++ [c]) < f :=
          lt_of_lt_of_le (remaining_lt g visited c hc hvc') hrem
        obtain ⟨sub, hsubeq⟩ := Option.isSome_iff_exists.mp
          (ih g c (levels ++ [i]) (visited ++ [c]) hless)
        rw [hsubeq]
        obtain ⟨tail, htaileq⟩ := Option.isSome_iff_exists.mp
          (ihl (fun d hd => hl d (List.mem_cons_of_mem _ hd)) (i + 1))
        rw [htaileq]
        rfl

/-- A successful `walkF` result is stable under adding fuel. -/
theorem walkF_mono : ∀ (f : Nat) (g : Graph) (node : String)
    (levels : List Nat) (visited : List String) (l : List Entry),
    walkF g f node levels visited = some l →
    walkF g (f + 1) node levels visited = some l := by
  intro f
  induction f with
  | zero =>
    intro g node levels visited l h
    exact absurd h (by simp [walkF])
  | succ f ih =>
    intro g node levels visited l h
    rw [walkF] at h
    rw [walkF]
    suffices H : ∀ (l0 : List String) (i : Nat) (res : List Entry),
        walkKids (walkF g f) node levels visited i l0 = some res →
        walkKids (walkF g (f + 1)) node levels visited i l0 = some res from
      H _ 0 l h
    intro l0
    induction l0 with
    | nil => intro i res h0; simpa [walkKids] using h0
    | cons c rest ihl =>
      intro i res h0
      rw [walkKids] at h0 ⊢
      by_cases hvc : visited.contains c = true
      · rw [if_pos hvc] at h0 ⊢
        exact ihl _ _ h0
      · rw [if_neg hvc] at h0 ⊢
        cases hsub : walkF g f c (levels ++ [i]) (visited ++ [c]) with
        | none => rw [hsub] at h0; exact absurd h0 (by simp)
        | some sub =>
          rw [hsub] at h0
          rw [ih g c (levels ++ [i]) (visited ++ [c]) sub hsub]
          cases htail : walkKids (walkF g f) node levels visited (i + 1) rest with
          | none => rw [htail] at h0; exact absurd h0 (by simp)
          | some tail =>
            rw [htail] at h0
            rw [ihl (i + 1) tail htail]
            exact h0

theorem walkF_mono_le (f f' : Nat) (hle : f ≤ f') (g : Graph) (node : String)
    (levels : List Nat) (visited : List String) (l : List Entry)
    (h : walkF g f node levels visited = some l) :
    walkF g f' node levels visited = some l := by
  induction hle with
  | refl => exact h
  | step _ ih => exact walkF_mono _ g node levels visited l ih

/-- Claim C9. The traversal terminates on every finite graph, cycles
included. First conjunct — from the default start state, any fuel beyond the
size of the child pool is never exhausted and every such fuel computes the
same finite entry list `walk g root`, so the recursion depth is genuinely
bounded and the result is fuel-independent. Second conjunct — the same
holds from every intermediate state of the recursion: whenever the fuel
exceeds the number of pool members not yet on the active path, the traversal
completes. -/
theorem c9_walk_terminates :
    (∀ (g : Graph) (root : String) (fuel : Nat), (pool g).length < fuel →
      walkF g fuel root [] [] = some (walk g root)) ∧
    (∀ (g : Graph) (fuel : Nat) (node : String) (levels : List Nat)
      (visited : List String), remaining g visited < fuel →
      (walkF g fuel node levels visited).isSome) := by
  constructor
  · intro g root fuel h
    have hrem : remaining g [] = (pool g).length := by
      simp [remaining]
    have h1 : (walkF g ((pool g).length + 1) root [] []).isSome :=
      walk_fuel_sufficient ((pool g).length + 1) g root [] []
        (by rw [hrem]; omega)
    obtain ⟨l, hl⟩ := Option.isSome_iff_exists.mp h1
    have hwalk : walk g root = l := by rw [walk, hl]; rfl
    rw [hwalk]
    exact walkF_mono_le _ _ (by omega) g root [] [] l hl
  · intro g fuel node levels visited h
    exact walk_fuel_sufficient fuel g node levels visited h

/-- Witness for C9 on the concrete two-node cycle, exercising both the
default start state and a mid-recursion state with a node on the path. -/
theorem c9_witness :
    ((pool [("X", ["Y"]), ("Y", ["X"])]).length < 5 ∧
      walkF [("X", ["Y"]), ("Y", ["X"])] 5 "X" [] [] =
        some (walk [("X", ["Y"]), ("Y", ["X"])] "X")) ∧
    (remaining [("X", ["Y"]), ("Y", ["X"])] ["Y"] < 4 ∧
      (walkF [("X", ["Y"]), ("Y", ["X"])] 4 "Y" [0] ["Y"]).isSome) :=
  ⟨⟨by decide, c9_walk_terminates.1 _ "X" 5 (by decide)⟩,
    ⟨by decide, c9_walk_terminates.2 _ 4 "Y" [0] ["Y"] (by decide)⟩⟩

theorem alGet_append_left {α : Type} (m l2 : List (String × α)) (k : String)
    (v : α) (h : alGet m k = some v) : alGet (m ++ l2) k = some v := by
  induction m with
  | nil => simp [alGet] at h
  | cons p m' ih =>
    obtain ⟨k2, v2⟩ := p
    rw [alGet] at h
    rw [List.cons_append, alGet]
    by_cases hk : (k == k2) = true
    · rwa [if_pos hk] at h ⊢
    · rw [if_neg hk] at h ⊢
      exact ih h

theorem alGet_append_of_none {α : Type} (m l2 : List (String × α)) (k : String)
    (h : alGet m k = none) : alGet (m ++ l2) k = alGet l2 k := by
  induction m with
  | nil => rfl
  | cons p m' ih =>
    obtain ⟨k2, v2⟩ := p
    rw [alGet] at h
    rw [List.cons_append, alGet]
    by_cases hk : (k == k2) = true
    · rw [if_pos hk] at h; exact absurd h (by simp)
    · rw [if_neg hk] at h ⊢
      exact ih h

/-- Looking up after a value-only rewrite of each entry (`fun p => (p.1, u p)`
for some value function `u`) finds an entry iff the original does. -/
theorem alGet_isSome_mapValue {α : Type} (u : String × α → α)
    (m : List (String × α)) (k : String) :
    (alGet (m.map (fun p => (p.1, u p))) k).isSome = (alGet m k).isSome := by
  induction m with
  | nil => rfl
  | cons p m' ih =>
    obtain ⟨k2, v2⟩ := p
    rw [List.map_cons, alGet, alGet]
    by_cases hk : (k == k2) = true
    · rw [if_pos hk, if_pos hk]
      rfl
    · rw [if_neg hk, if_neg hk]
      exact ih

/-- A value-only rewrite of each entry leaves lookups at other keys intact
when the rewrite touches only the entry at `k'`. -/
theorem alGet_mapValue_ne {α : Type} (u : α → α) (k' : String)
    (m : List (String × α)) (k : String) (hne : k ≠ k') :
    alGet (m.map (fun p => if p.1 == k' then (p.1, u p.2) else p)) k =
      alGet m k := by
  induction m with
  | nil => rfl
  | cons p m' ih =>
    obtain ⟨k2, v2⟩ := p
    rw [List.map_cons]
    by_cases h2 : (k2 == k') = true
    · rw [if_pos h2]
      rw [alGet, alGet]
      by_cases hk : (k == k2) = true
      · exact absurd ((beq_iff_eq.mp hk).trans (beq_iff_eq.mp h2))
          hne
      · rw [if_neg hk, if_neg hk]
        exact ih
    · rw [if_neg h2]
      rw [alGet, alGet]
      by_cases hk : (k == k2) = true
      · rw [if_pos hk, if_pos hk]
      · rw [if_neg hk, if_neg hk]
        exact ih

/-- `alExtend` adds exactly the key `k'` to the dict's key set. -/
theorem alGet_alExtend_isSome (m : List (String × List String))
    (k' : String) (vs : List String) (k : String) :
    (alGet (alExtend m k' vs) k).isSome ↔
      ((alGet m k).isSome ∨ k = k') := by
  unfold alExtend
  by_cases hp : (alGet m k').isSome
  · rw [if_pos hp]
    have : (m.map fun p => if p.1 == k' then (p.1, p.2 ++ vs) else p) =
        m.map fun p => (p.1, if p.1 == k' then p.2 ++ vs else p.2) := by
      apply List.map_congr_left
      intro p _
      by_cases h : (p.1 == k') = true
      · rw [if_pos h, if_pos h]
      · rw [if_neg h, if_neg h]
    rw [this, alGet_isSome_mapValue]
    constructor
    · exact Or.inl
    · rintro (h | rfl)
      · exact h
      · exact hp
  · rw [if_neg hp]
    cases hmk : alGet m k with
    | some v => simp [alGet_append_left m _ k v hmk]
    | none =>
      rw [alGet_append_of_none m _ k hmk]
      rw [alGet]
      by_cases hk : (k == k') = true
      · have hkk : k = k' := beq_iff_eq.mp hk
        subst hkk
        simp [if_pos hk, hmk]
      · rw [if_neg hk]
        simp only [alGet, Option.isSome_none, Bool.false_eq_true, false_iff]
        push_neg
        refine ⟨by simp [hmk], ?_⟩
        intro hkk
        exact hk (beq_iff_eq.mpr hkk)

theorem alGet_alSetdefault_ne (m : List (String × CategoryInfo))
    (k' k : String) (hne : k ≠ k') :
    alGet (alSetdefault m k') k = alGet m k := by
  unfold alSetdefault
  by_cases hp : (alGet m k').isSome
  · rw [if_pos hp]
  · rw [if_neg hp]
    cases hmk : alGet m k with
    | some v => exact alGet_append_left m _ k v hmk
    | none =>
      rw [alGet_append_of_none m _ k hmk, alGet]
      rw [if_neg (fun h => hne (beq_iff_eq.mp h))]
      rfl

theorem alGet_alSetdefault_self (m : List (String × CategoryInfo))
    (k' : String) :
    alGet (alSetdefault m k') k' = some ((alGet m k').getD zeroInfo) := by
  unfold alSetdefault
  cases hmk : alGet m k' with
  | some v => rw [if_pos (by simp [hmk]), hmk]; rfl
  | none =>
    rw [if_neg (by simp [hmk]), alGet_append_of_none m _ k' hmk, alGet]
    rw [if_pos (beq_self_eq_true k')]
    rfl

theorem alGet_alUpdate_isSome (m : List (String × CategoryInfo))
    (k' : String) (v : CategoryInfo) (k : String) :
    (alGet (alUpdate m k' v) k).isSome = (alGet m k).isSome := by
  unfold alUpdate
  have : (m.map fun p => if p.1 == k' then (p.1, v) else p) =
      m.map fun p => (p.1, if p.1 == k' then v else p.2) := by
    apply List.map_congr_left
    intro p _
    by_cases h : (p.1 == k') = true
    · rw [if_pos h, if_pos h]
    · rw [if_neg h, if_neg h]
  rw [this, alGet_isSome_mapValue]

theorem alGet_alUpdate_ne (m : List (String × CategoryInfo))
    (k' : String) (v : CategoryInfo) (k : String) (hne : k ≠ k') :
    alGet (alUpdate m k' v) k = alGet m k :=
  alGet_mapValue_ne (fun _ => v) k' m k hne

/-- After one `build_graph` loop iteration the info dict has an entry for
`k` iff it had one before or `k` is this record's title. -/
theorem buildStep_info_isSome (st : BuildState) (p : PageRecord) (k : String) :
    (alGet (buildStep st p).2.2 k).isSome ↔
      ((alGet st.2.2 k).isSome ∨ k = p.title) := by
  obtain ⟨ps, cs, inf⟩ := st
  unfold buildStep
  cases hcat : p.categories <;> cases hci : p.categoryinfo <;>
    simp only [] <;>
    (try rw [alGet_alUpdate_isSome]) <;>
    by_cases hk : k = p.title
  case' pos | pos | pos | pos => subst hk
  all_goals
    first
    | (rw [alGet_alSetdefault_self]; simp)
    | (rw [alGet_alSetdefault_ne _ _ _ hk]; simp [hk])

/-- After one loop iteration a parents key is an old parents key or this
record's title. -/
theorem buildStep_parents_isSome (st : BuildState) (p : PageRecord)
    (k : String) (h : (alGet (buildStep st p).1 k).isSome) :
    (alGet st.1 k).isSome ∨ k = p.title := by
  obtain ⟨ps, cs, inf⟩ := st
  unfold buildStep at h
  cases hcat : p.categories with
  | none => rw [hcat] at h; exact Or.inl h
  | some cats =>
    rw [hcat] at h
    exact (alGet_alExtend_isSome ps p.title cats k).mp h

/-- A record that carries no categoryinfo for `k` keeps the info entry at `k`
absent or all-zero. -/
theorem buildStep_info_zero (st : BuildState) (p : PageRecord) (k : String)
    (hns : p.title = k → p.categoryinfo = none)
    (hB : alGet st.2.2 k = none ∨ alGet st.2.2 k = some zeroInfo) :
    alGet (buildStep st p).2.2 k = none ∨
      alGet (buildStep st p).2.2 k = some zeroInfo := by
  obtain ⟨ps, cs, inf⟩ := st
  unfold buildStep
  by_cases hk : k = p.title
  · have hci : p.categoryinfo = none := hns hk.symm
    rw [hci]
    cases hcat : p.categories <;> simp only [] <;>
      · subst hk
        rw [alGet_alSetdefault_self]
        rcases hB with hB | hB <;> rw [hB] <;> simp
  · cases hcat : p.categories <;> cases hci : p.categoryinfo <;>
      simp only [] <;> (try rw [alGet_alUpdate_ne _ _ _ _ hk]) <;>
      rw [alGet_alSetdefault_ne _ _ _ hk] <;> exact hB

theorem build_graph_parents_info_aux (k : String) :
    ∀ (pages : List PageRecord) (st : BuildState),
    ((alGet st.1 k).isSome → (alGet st.2.2 k).isSome) →
    ((alGet (pages.foldl buildStep st).1 k).isSome →
      (alGet (pages.foldl buildStep st).2.2 k).isSome) := by
  intro pages
  induction pages with
  | nil => intro st h; exact h
  | cons p rest ih =>
    intro st h
    rw [List.foldl_cons]
    apply ih
    intro hp
    rcases buildStep_parents_isSome st p k hp with hold | hnew
    · exact (buildStep_info_isSome st p k).mpr (Or.inl (h hold))
    · exact (buildStep_info_isSome st p k).mpr (Or.inr hnew)

theorem build_graph_info_zero_aux (k : String) :
    ∀ (pages : List PageRecord) (st : BuildState),
    (∀ p ∈ pages, p.title = k → p.categoryinfo = none) →
    (alGet st.2.2 k = none ∨ alGet st.2.2 k = some zeroInfo) →
    (alGet (pages.foldl buildStep st).2.2 k = none ∨
      alGet (pages.foldl buildStep st).2.2 k = some zeroInfo) := by
  intro pages
  induction pages with
  | nil => intro st _ hB; exact hB
  | cons p rest ih =>
    intro st hns hB
    rw [List.foldl_cons]
    exact ih _ (fun q hq => hns q (List.mem_cons_of_mem _ hq))
      (buildStep_info_zero st p k (hns p (List.mem_cons_self _ _)) hB)

/-- Claim C7 amended. Every node that appears as a key in `parents` (i.e.
every record title with a category list) has an entry in `info`, and that
entry is all-zero whenever no record supplied categoryinfo for the node; a
node appearing only as a key in `children` — a category that exists purely by
reference — may have no `info` entry. -/
theorem c7_amended_parents_have_info (pages : List PageRecord) (k : String)
    (hk : (alGet (build_graph pages).1 k).isSome) :
    (alGet (build_graph pages).2.2 k).isSome ∧
    ((∀ p ∈ pages, p.title = k → p.categoryinfo = none) →
      alGet (build_graph pages).2.2 k = some zeroInfo) := by
  unfold build_graph at hk ⊢
  have h1 : (alGet (pages.foldl buildStep ([], [], [])).2.2 k).isSome :=
    build_graph_parents_info_aux k pages ([], [], [])
      (fun h => absurd h (by simp [alGet])) hk
  refine ⟨h1, fun hns => ?_⟩
  rcases build_graph_info_zero_aux k pages ([], [], []) hns
      (Or.inl (by simp [alGet])) with h2 | h2
  · rw [h2] at h1; exact absurd h1 (by simp)
  · exact h2

/-- Witness for the amended C7. -/
theorem c7_amended_witness :
    (alGet (build_graph [⟨"Category:A", some ["Category:B"], none⟩]).1
      "Category:A").isSome ∧
    alGet (build_graph [⟨"Category:A", some ["Category:B"], none⟩]).2.2
      "Category:A" = some zeroInfo :=
  ⟨by decide,
    (c7_amended_parents_have_info [⟨"Category:A", some ["Category:B"], none⟩]
      "Category:A" (by decide)).2 (by decide)⟩

end WikiScripts

